import Mathlib

/-!
Verification development for the CCA dashboard's chain-sync and aggregation
engine (`src/app/api/cca/sync/route.ts`).

The embedding below translates the sync route into pure Lean functions:

* JavaScript `number` amounts (USDC values decoded from a 6-decimal
  fixed-point integer) are modelled as `ℚ`.
* `bigint` block numbers are modelled as `ℕ`.
* ISO-8601 timestamp strings are kept as `String`; the JavaScript `>`
  comparison on strings (lexicographic by code unit) is modelled by the
  structural comparison `strLt` below.
* The Supabase tables are modelled by the `Db` record: the singleton
  `cca_sync_state` row as `Option ℕ` (`none` = row absent), the
  `cca_transfers` table as a list of `Transfer` rows in insertion order,
  and the derived `cca_wallets` / `cca_stats_latest` tables as the
  recomputed rows written on each run.  A batch upsert with
  `onConflict` is modelled row by row: each incoming row replaces the
  rows sharing its key, or is appended when the key is absent.
* External effects (chain head, `getLogs`, per-block timestamp lookup,
  the wall clock, and the success/failure of the two storage writes the
  code inspects) are inputs of one invocation, collected in `SyncInputs`.
  The paginated full-table read of `cca_transfers` returns the whole
  table in order and is modelled as reading `Db.ledger` directly.  The
  best-effort ENS enrichment pass only updates the `ens_name` column,
  which no claim concerns, and is not tracked in `Db`.
* The loop over block chunks is bounded by `CHUNKS_PER_CALL`; it is
  translated with an explicit fuel argument equal to that bound, which
  the guard `chunksProcessed < chunksPerCall` always exhausts first, so
  the fuel never cuts an iteration short.
* The chunk size and chunk count, constants in the source, are passed as
  parameters so that scenario claims stated for other chunk sizes can be
  expressed; the source values are `CHUNK_SIZE` and `CHUNKS_PER_CALL`.
-/

/-- Contract deployment vicinity, `GENESIS_BLOCK` in the source. -/
def GENESIS_BLOCK : ℕ := 41610000

/-- Blocks per `getLogs` call in the source. -/
def CHUNK_SIZE : ℕ := 2000

/-- Maximum chunks per invocation in the source. -/
def CHUNKS_PER_CALL : ℕ := 100

/-- The auction contract address constant from the source. -/
def CCA_CONTRACT : String := "0x7e867b47a94df05188c08575e8B9a52F3F69c469"

/-- USDC fixed-point scale from the source. -/
def USDC_DECIMALS : ℕ := 6

/-- One row of the `cca_transfers` table: a normalized transfer record. -/
structure Transfer where
  tx_hash : String
  block_number : ℕ
  from_address : String
  to_address : String
  amount_usdc : ℚ
  block_time : String
deriving DecidableEq

/-- Lexicographic (code-unit) strict comparison of char lists, the order
JavaScript uses for `<` / `>` on strings. -/
def charListLt : List Char → List Char → Bool
  | _, [] => false
  | [], _ :: _ => true
  | a :: as, b :: bs => if a < b then true else if b < a then false else charListLt as bs

/-- JavaScript string `<`: `strLt a b = true` iff `a < b` by code units. -/
def strLt (a b : String) : Bool := charListLt a.data b.data

/-- Lowercasing of an address string (`String.prototype.toLowerCase`). -/
def toLowerStr (s : String) : String := ⟨s.data.map Char.toLower⟩

/-- The persistent store: sync checkpoint row, transfer ledger, and the two
derived tables recomputed each run. -/
structure Db where
  checkpoint : Option ℕ
  ledger : List Transfer
  walletsTable : Option (List (String × ℚ × ℕ × Option String))
  statsTable : Option (List ℚ)
deriving DecidableEq

/-- `getLastProcessedBlock`: the stored cursor, or `BigInt(0)` when the row
is absent (or the read errors). -/
def getLastProcessedBlock (db : Db) : ℕ :=
  match db.checkpoint with
  | none => 0
  | some b => b

/-- `saveLastProcessedBlock`: upsert of the checkpoint row; a storage error
(`saveOk = false`) is only logged and leaves the store unchanged. -/
def saveLastProcessedBlock (saveOk : Bool) (db : Db) (block : ℕ) : Db :=
  if saveOk then { db with checkpoint := some block } else db

/-- Insertion step of a stable sort with boolean comparator: the new element
goes in front of the first element it may precede. -/
def jsInsert {α : Type} (le : α → α → Bool) (a : α) : List α → List α
  | [] => [a]
  | b :: bs => if le a b then a :: b :: bs else b :: jsInsert le a bs

/-- Stable comparator sort, modelling `Array.prototype.sort`. -/
def jsSort {α : Type} (le : α → α → Bool) : List α → List α
  | [] => []
  | a :: as => jsInsert le a (jsSort le as)

/-- `computeMedian` from the source: 0 on empty input, middle element of the
ascending sort for odd length, average of the two middle elements for even
length. -/
def computeMedian (values : List ℚ) : ℚ :=
  if values.length = 0 then 0
  else
    let sorted := jsSort (fun a b => decide (a ≤ b)) values
    let mid := sorted.length / 2
    if sorted.length % 2 ≠ 0 then sorted.getD mid 0
    else (sorted.getD (mid - 1) 0 + sorted.getD mid 0) / 2

/-- Per-wallet accumulator value held in the `walletMap`. -/
structure WalletAgg where
  total : ℚ
  count : ℕ
  lastBidTime : String
deriving DecidableEq

/-- The accumulator a wallet starts from (`{ total: 0, count: 0, lastBidTime: "" }`). -/
def emptyAgg : WalletAgg := ⟨0, 0, ""⟩

/-- `Map.prototype.get` on the insertion-ordered association list. -/
def mapGet : List (String × WalletAgg) → String → Option WalletAgg
  | [], _ => none
  | p :: rest, k => if p.1 = k then some p.2 else mapGet rest k

/-- `Map.prototype.set`: replace the entry of an existing key in place,
else append. -/
def mapSet : List (String × WalletAgg) → String → WalletAgg → List (String × WalletAgg)
  | [], k, v => [(k, v)]
  | p :: rest, k, v => if p.1 = k then (k, v) :: rest else p :: mapSet rest k v

/-- One ledger row folded into a wallet's accumulator: add the amount, bump
the count, keep the later `block_time` (JavaScript string `>`). -/
def walletStep (existing : WalletAgg) (t : Transfer) : WalletAgg :=
  { total := existing.total + t.amount_usdc
    count := existing.count + 1
    lastBidTime :=
      if strLt existing.lastBidTime t.block_time then t.block_time else existing.lastBidTime }

/-- The `for (const t of transfers)` aggregation loop, from an arbitrary
starting map. -/
def walletFold (m : List (String × WalletAgg)) (ts : List Transfer) :
    List (String × WalletAgg) :=
  ts.foldl
    (fun m t => mapSet m t.from_address (walletStep ((mapGet m t.from_address).getD emptyAgg) t))
    m

/-- The `walletMap` computed by a run: the aggregation loop from the empty map. -/
def buildWalletMap (ts : List Transfer) : List (String × WalletAgg) :=
  walletFold [] ts

/-- One row written to `cca_wallets` (`last_bid_time: data.lastBidTime || null`). -/
def walletRowsOf (m : List (String × WalletAgg)) : List (String × ℚ × ℕ × Option String) :=
  m.map fun p =>
    (p.1, p.2.total, p.2.count, if p.2.lastBidTime = "" then none else some p.2.lastBidTime)

/-- The `cca_stats_latest` row recomputed each run. -/
structure Stats where
  total_usdc : ℚ
  total_bids : ℕ
  unique_wallets : ℕ
  avg_bid : ℚ
  median_bid : ℚ
  pct_bids_lt_50 : ℚ
  pct_bids_lt_100 : ℚ
  top10_share : ℚ
  top50_share : ℚ
  last_processed_block : ℕ
deriving DecidableEq

/-- Global statistics computation (source lines 300-326), a pure function of
the full ledger read and the final cursor. -/
def computeStats (finalBlock : ℕ) (transfers : List Transfer) : Stats :=
  let allAmounts := transfers.map (·.amount_usdc)
  let totalUsdc := allAmounts.foldl (· + ·) 0
  let totalBids := allAmounts.length
  let avgBid : ℚ := if 0 < totalBids then totalUsdc / (totalBids : ℚ) else 0
  let walletMap := buildWalletMap transfers
  let sortedWallets := jsSort (fun a b => decide (b.2.total ≤ a.2.total)) walletMap
  let top10Total := ((sortedWallets.take 10).map (·.2.total)).foldl (· + ·) 0
  let top50Total := ((sortedWallets.take 50).map (·.2.total)).foldl (· + ·) 0
  let bidsUnder50 := (allAmounts.filter fun v => decide (v < 50)).length
  let bidsUnder100 := (allAmounts.filter fun v => decide (v < 100)).length
  { total_usdc := totalUsdc
    total_bids := totalBids
    unique_wallets := walletMap.length
    avg_bid := avgBid
    median_bid := computeMedian allAmounts
    pct_bids_lt_50 := if 0 < totalBids then (bidsUnder50 : ℚ) / (totalBids : ℚ) * 100 else 0
    pct_bids_lt_100 := if 0 < totalBids then (bidsUnder100 : ℚ) / (totalBids : ℚ) * 100 else 0
    top10_share := if 0 < totalUsdc then top10Total / totalUsdc * 100 else 0
    top50_share := if 0 < totalUsdc then top50Total / totalUsdc * 100 else 0
    last_processed_block := finalBlock }

/-- Replacement of the rows conflicting with `r` on `tx_hash`. -/
def substTx (r r' : Transfer) : Transfer :=
  if r'.tx_hash = r.tx_hash then r else r'

/-- Upsert of one row keyed by `tx_hash`: update the conflicting row in
place, else append. -/
def upsertOne (L : List Transfer) (r : Transfer) : List Transfer :=
  if ∃ r' ∈ L, r'.tx_hash = r.tx_hash then L.map (substTx r) else L ++ [r]

/-- The batch upsert of newly normalized records into `cca_transfers`
(`onConflict: "tx_hash"`), row by row in batch order. -/
def upsertLedger (L : List Transfer) (rows : List Transfer) : List Transfer :=
  rows.foldl upsertOne L

/-- One raw log entry returned by `getLogs` for the filtered Transfer event. -/
structure LogEntry where
  transactionHash : String
  blockNumber : ℕ
  sender : String
  value : ℕ
deriving DecidableEq

/-- Outcome of one `getLogs` attempt: the logs, a 429/Too Many rate-limit
error, or any other error. -/
inductive FetchResult where
  | success (logs : List LogEntry)
  | rateLimited
  | otherError
deriving DecidableEq

/-- Normalization of a raw log into a ledger row: 6-decimal fixed point to
decimal amount, lowercased sender, the auction contract as recipient, and
the wall-clock time as provisional `block_time`. -/
def normalizeLog (nowIso : String) (log : LogEntry) : Transfer :=
  { tx_hash := log.transactionHash
    block_number := log.blockNumber
    from_address := toLowerStr log.sender
    to_address := toLowerStr CCA_CONTRACT
    amount_usdc := (log.value : ℚ) / 10 ^ USDC_DECIMALS
    block_time := nowIso }

/-- Mutable state of the chunk loop.  `fetchCalls` records the inclusive
`(fromBlock, toBlock)` range requested for each chunk iteration; it is
observational instrumentation of the `getLogs` calls and feeds nothing back
into the loop. -/
structure LoopState where
  cursor : ℕ
  chunksProcessed : ℕ
  rateLimitHits : ℕ
  newTransfers : List Transfer
  fetchCalls : List (ℕ × ℕ)
deriving DecidableEq

/-- End of the current chunk: `cursor + CHUNK_SIZE`, clamped to the chain
head. -/
def chunkEndFor (chunkSize currentBlock cursor : ℕ) : ℕ :=
  if currentBlock < cursor + chunkSize then currentBlock else cursor + chunkSize

/-- The `for (attempt = 0; attempt < 3; ...)` retry loop: success returns
the logs; a rate-limit error counts a hit and retries; any other error
stops the attempts at once.  Returns the logs (if any attempt succeeded)
and the updated cumulative rate-limit hit count. -/
def attemptLoopAux (fetch : ℕ → ℕ → ℕ → FetchResult) (fromBlock toBlock : ℕ) :
    ℕ → ℕ → ℕ → Option (List LogEntry) × ℕ
  | 0, _, hits => (none, hits)
  | remaining + 1, attempt, hits =>
    match fetch fromBlock toBlock attempt with
    | .success logs => (some logs, hits)
    | .rateLimited => attemptLoopAux fetch fromBlock toBlock remaining (attempt + 1) (hits + 1)
    | .otherError => (none, hits)

/-- Entry point of the retry loop: three attempts, starting from attempt 0
and the cumulative hit count so far. -/
def attemptLoop (fetch : ℕ → ℕ → ℕ → FetchResult) (fromBlock toBlock hits : ℕ) :
    Option (List LogEntry) × ℕ :=
  attemptLoopAux fetch fromBlock toBlock 3 0 hits

/-- The chunk loop (source lines 140-194).  The fuel argument is
initialized to `chunksPerCall`; since `chunksProcessed` starts at 0 and
increases by one per iteration, the guard `chunksProcessed < chunksPerCall`
always stops the loop before the fuel runs out. -/
def chunkLoopAux (chunkSize chunksPerCall : ℕ) (fetch : ℕ → ℕ → ℕ → FetchResult)
    (currentBlock : ℕ) (nowIso : String) : ℕ → LoopState → LoopState
  | 0, s => s
  | fuel + 1, s =>
    if s.cursor ≤ currentBlock ∧ s.chunksProcessed < chunksPerCall then
      let chunkEnd := chunkEndFor chunkSize currentBlock s.cursor
      match attemptLoop fetch s.cursor chunkEnd s.rateLimitHits with
      | (some logs, hits) =>
        chunkLoopAux chunkSize chunksPerCall fetch currentBlock nowIso fuel
          { cursor := chunkEnd + 1
            chunksProcessed := s.chunksProcessed + 1
            rateLimitHits := hits
            newTransfers := s.newTransfers ++ logs.map (normalizeLog nowIso)
            fetchCalls := s.fetchCalls ++ [(s.cursor, chunkEnd)] }
      | (none, hits) =>
        if 3 ≤ hits then
          { s with rateLimitHits := hits, fetchCalls := s.fetchCalls ++ [(s.cursor, chunkEnd)] }
        else
          chunkLoopAux chunkSize chunksPerCall fetch currentBlock nowIso fuel
            { cursor := chunkEnd + 1
              chunksProcessed := s.chunksProcessed + 1
              rateLimitHits := hits
              newTransfers := s.newTransfers
              fetchCalls := s.fetchCalls ++ [(s.cursor, chunkEnd)] }
    else s

/-- Everything one invocation of the GET handler observes from outside the
store: the shared-secret check, the optional `reset` parameter, the chain
head, the `getLogs` oracle (arguments: fromBlock, toBlock, attempt index),
the wall clock, the per-block timestamp lookup (`none` = lookup failed),
the fallback estimate, the ledger-upsert outcome, and the checkpoint-write
outcome. -/
structure SyncInputs where
  secretOk : Bool
  reset : Option ℕ
  currentBlock : ℕ
  fetch : ℕ → ℕ → ℕ → FetchResult
  nowIso : String
  blockTime : ℕ → Option String
  estTime : ℕ → String
  insertErr : Option String
  saveOk : Bool

/-- Resume point: the configured genesis when no progress is recorded
(`lastProcessedBlock === BigInt(0)`), else the block after the checkpoint. -/
def resumeCursor (lastProcessedBlock : ℕ) : ℕ :=
  if lastProcessedBlock = 0 then GENESIS_BLOCK else lastProcessedBlock + 1

/-- The chunk loop as run by one invocation, from the resume cursor. -/
def runLoop (chunkSize chunksPerCall : ℕ) (inp : SyncInputs) (cursor0 : ℕ) : LoopState :=
  chunkLoopAux chunkSize chunksPerCall inp.fetch inp.currentBlock inp.nowIso chunksPerCall
    { cursor := cursor0, chunksProcessed := 0, rateLimitHits := 0
      newTransfers := [], fetchCalls := [] }

/-- Timestamp application (source lines 199-223): the per-block lookup
result, or on lookup failure the block-distance estimate; the JavaScript
`|| t.block_time` keeps the provisional value when the map value is the
empty string. -/
def stampTransfer (inp : SyncInputs) (t : Transfer) : Transfer :=
  let ts := (inp.blockTime t.block_number).getD (inp.estTime t.block_number)
  { t with block_time := if ts = "" then t.block_time else ts }

/-- The JSON progress summary of a completed run (source lines 332-346). -/
structure Summary where
  blocksScanned : ℕ
  blockRange_from : ℕ
  blockRange_to : ℕ
  newTransfers : ℕ
  totalTransfersInDb : ℕ
  currentBlock : ℕ
  caughtUp : Bool
  savedBlock : ℕ
  blocksRemaining : ℕ
  estimatedCallsRemaining : ℕ
deriving DecidableEq

/-- Construction of the progress summary from the loop's final state. -/
def mkSummary (chunkSize chunksPerCall lastProcessedBlock currentBlock : ℕ)
    (final : LoopState) (ledgerLen : ℕ) : Summary :=
  let finalBlock := final.cursor - 1
  let blocksRemaining := currentBlock - finalBlock
  { blocksScanned := final.chunksProcessed * chunkSize
    blockRange_from := resumeCursor lastProcessedBlock
    blockRange_to := finalBlock
    newTransfers := final.newTransfers.length
    totalTransfersInDb := ledgerLen
    currentBlock := currentBlock
    caughtUp := decide (currentBlock ≤ finalBlock)
    savedBlock := finalBlock
    blocksRemaining := blocksRemaining
    estimatedCallsRemaining :=
      (blocksRemaining + chunksPerCall * chunkSize - 1) / (chunksPerCall * chunkSize) }

/-- The JSON responses the handler can return. -/
inductive SyncResponse where
  | unauthorized
  | resetDone (block : ℕ)
  | upToDate (currentBlock lastProcessedBlock : ℕ)
  | ok (summary : Summary)
  | serverError (msg : String)
deriving DecidableEq

/-- Tail of a successful run: recompute both derived tables from the full
ledger, save the cursor at the final attempted block, and report the
summary. -/
def finishRun (chunkSize chunksPerCall : ℕ) (inp : SyncInputs) (db : Db)
    (lastProcessedBlock : ℕ) (final : LoopState) (ledger' : List Transfer) :
    SyncResponse × Db :=
  let stats := computeStats (final.cursor - 1) ledger'
  let db' : Db :=
    { db with
        ledger := ledger'
        walletsTable := some (walletRowsOf (buildWalletMap ledger'))
        statsTable := some [stats.total_usdc, stats.avg_bid, stats.median_bid,
          stats.pct_bids_lt_50, stats.pct_bids_lt_100, stats.top10_share, stats.top50_share] }
  (.ok (mkSummary chunkSize chunksPerCall lastProcessedBlock inp.currentBlock final
      ledger'.length),
    saveLastProcessedBlock inp.saveOk db' (final.cursor - 1))

/-- Body of a run past the up-to-date check: chunk loop, timestamping and
ledger persistence (a ledger-write error throws, reaching the catch-all),
then the recomputation tail. -/
def syncMain (chunkSize chunksPerCall : ℕ) (inp : SyncInputs) (db : Db)
    (lastProcessedBlock : ℕ) : SyncResponse × Db :=
  let final := runLoop chunkSize chunksPerCall inp (resumeCursor lastProcessedBlock)
  if 0 < final.newTransfers.length then
    match inp.insertErr with
    | some msg => (.serverError ("Failed to insert: " ++ msg), db)
    | none =>
      finishRun chunkSize chunksPerCall inp db lastProcessedBlock final
        (upsertLedger db.ledger (final.newTransfers.map (stampTransfer inp)))
  else
    finishRun chunkSize chunksPerCall inp db lastProcessedBlock final db.ledger

/-- One invocation of the GET handler: secret check, optional administrative
reset, checkpoint read, up-to-date shortcut, then the main body. -/
def syncRun (chunkSize chunksPerCall : ℕ) (inp : SyncInputs) (db : Db) :
    SyncResponse × Db :=
  if inp.secretOk then
    match inp.reset with
    | some block => (.resetDone block, saveLastProcessedBlock inp.saveOk db block)
    | none =>
      let lastProcessedBlock := getLastProcessedBlock db
      if inp.currentBlock < resumeCursor lastProcessedBlock then
        (.upToDate inp.currentBlock lastProcessedBlock, db)
      else
        syncMain chunkSize chunksPerCall inp db lastProcessedBlock
  else (.unauthorized, db)

/-- A sequence of invocations run against the store in order. -/
def runSeq (chunkSize chunksPerCall : ℕ) (db : Db) : List SyncInputs → Db
  | [] => db
  | inp :: rest => runSeq chunkSize chunksPerCall (syncRun chunkSize chunksPerCall inp db).2 rest

/-! ### Upsert lemmas (towards idempotent re-ingestion) -/

theorem substTx_tx_hash (r r' : Transfer) : (substTx r r').tx_hash = r'.tx_hash := by
  unfold substTx
  split <;> simp_all

theorem exists_tx_map_substTx (L : List Transfer) (c : Transfer) (k : String) :
    (∃ r' ∈ L.map (substTx c), r'.tx_hash = k) ↔ (∃ r' ∈ L, r'.tx_hash = k) := by
  simp only [List.mem_map]
  constructor
  · rintro ⟨r', ⟨a, ha, rfl⟩, hk⟩
    exact ⟨a, ha, by rwa [substTx_tx_hash] at hk⟩
  · rintro ⟨a, ha, hk⟩
    exact ⟨substTx c a, ⟨a, ha, rfl⟩, by rwa [substTx_tx_hash]⟩

theorem substTx_substTx_same {c c' : Transfer} (h : c'.tx_hash = c.tx_hash) (r : Transfer) :
    substTx c' (substTx c r) = substTx c' r := by
  by_cases h1 : r.tx_hash = c.tx_hash
  · have h2 : r.tx_hash = c'.tx_hash := by rw [h1, h]
    have h3 : c.tx_hash = c'.tx_hash := by rw [h]
    simp [substTx, h1, h2, h3]
  · simp [substTx, h1]

theorem substTx_substTx_comm {c c' : Transfer} (h : c'.tx_hash ≠ c.tx_hash) (r : Transfer) :
    substTx c' (substTx c r) = substTx c (substTx c' r) := by
  by_cases h1 : r.tx_hash = c.tx_hash
  · have h2 : ¬ r.tx_hash = c'.tx_hash := by rw [h1]; exact fun hx => h hx.symm
    have h3 : ¬ c.tx_hash = c'.tx_hash := fun hx => h hx.symm
    simp [substTx, h1, h2, h3]
  · by_cases h2 : r.tx_hash = c'.tx_hash
    · have h3 : ¬ c'.tx_hash = c.tx_hash := h
      simp [substTx, h1, h2, h3]
    · simp [substTx, h1, h2]

theorem upsertOne_eq_map {L : List Transfer} {c : Transfer}
    (h : ∃ r' ∈ L, r'.tx_hash = c.tx_hash) : upsertOne L c = L.map (substTx c) := by
  unfold upsertOne
  exact if_pos h

theorem tx_mem_upsertOne (L : List Transfer) (c : Transfer) :
    ∃ r' ∈ upsertOne L c, r'.tx_hash = c.tx_hash := by
  unfold upsertOne
  split
  · next h =>
    obtain ⟨a, ha, hk⟩ := h
    exact ⟨substTx c a, List.mem_map_of_mem _ ha, by rw [substTx_tx_hash, hk]⟩
  · exact ⟨c, by simp, rfl⟩

theorem tx_mem_upsertOne_mono {L : List Transfer} {k : String} (c : Transfer)
    (h : ∃ r' ∈ L, r'.tx_hash = k) : ∃ r' ∈ upsertOne L c, r'.tx_hash = k := by
  unfold upsertOne
  split
  · exact (exists_tx_map_substTx L c k).mpr h
  · obtain ⟨a, ha, hk⟩ := h
    exact ⟨a, List.mem_append_left _ ha, hk⟩

theorem tx_mem_upsertLedger_mono {k : String} (C : List Transfer) :
    ∀ L : List Transfer, (∃ r' ∈ L, r'.tx_hash = k) →
      ∃ r' ∈ upsertLedger L C, r'.tx_hash = k := by
  induction C with
  | nil => intro L h; exact h
  | cons c C ih =>
    intro L h
    show ∃ r' ∈ upsertLedger (upsertOne L c) C, r'.tx_hash = k
    exact ih _ (tx_mem_upsertOne_mono c h)

theorem upsertOne_key_all_eq {L : List Transfer} {c : Transfer} :
    ∀ r ∈ upsertOne L c, r.tx_hash = c.tx_hash → r = c := by
  unfold upsertOne
  split
  · intro r hr hk
    obtain ⟨a, _, rfl⟩ := List.mem_map.mp hr
    by_cases hac : a.tx_hash = c.tx_hash
    · simp [substTx, hac]
    · rw [substTx_tx_hash] at hk
      exact absurd hk hac
  · next h =>
    intro r hr hk
    rcases List.mem_append.mp hr with h1 | h1
    · exact absurd ⟨r, h1, hk⟩ h
    · simpa using h1

theorem upsertLedger_key_preserve {k : String} {c : Transfer} :
    ∀ C : List Transfer, (∀ e ∈ C, e.tx_hash ≠ k) →
      ∀ L : List Transfer, (∀ r ∈ L, r.tx_hash = k → r = c) →
      ∀ r ∈ upsertLedger L C, r.tx_hash = k → r = c := by
  intro C
  induction C with
  | nil => intro _ L hL; exact hL
  | cons e C ih =>
    intro hC L hL
    have he : e.tx_hash ≠ k := hC e (List.mem_cons_self e C)
    have hC' : ∀ x ∈ C, x.tx_hash ≠ k := fun x hx => hC x (List.mem_cons_of_mem e hx)
    show ∀ r ∈ upsertLedger (upsertOne L e) C, r.tx_hash = k → r = c
    refine ih hC' (upsertOne L e) ?_
    intro r hr hk
    unfold upsertOne at hr
    split at hr
    · obtain ⟨a, ha, rfl⟩ := List.mem_map.mp hr
      rw [substTx_tx_hash] at hk
      have : a.tx_hash ≠ e.tx_hash := by rw [hk]; exact fun hx => he hx.symm
      have heq : substTx e a = a := by simp [substTx, this]
      rw [heq]
      exact hL a ha hk
    · rcases List.mem_append.mp hr with h1 | h1
      · exact hL r h1 hk
      · have : r = e := by simpa using h1
        rw [this] at hk
        exact absurd hk he

theorem map_substTx_id {M : List Transfer} {c : Transfer}
    (h : ∀ r ∈ M, r.tx_hash = c.tx_hash → r = c) : M.map (substTx c) = M := by
  have heq : ∀ a ∈ M, substTx c a = id a := by
    intro a ha
    by_cases hk : a.tx_hash = c.tx_hash
    · simp [substTx, hk, (h a ha hk).symm]
    · simp [substTx, hk]
  rw [List.map_congr_left heq, List.map_id]

theorem upsertOne_map_comm {c c' : Transfer} (h : c'.tx_hash ≠ c.tx_hash) (L : List Transfer) :
    upsertOne (L.map (substTx c)) c' = (upsertOne L c').map (substTx c) := by
  unfold upsertOne
  by_cases hm : ∃ r' ∈ L, r'.tx_hash = c'.tx_hash
  · rw [if_pos ((exists_tx_map_substTx L c _).mpr hm), if_pos hm, List.map_map, List.map_map]
    refine List.map_congr_left ?_
    intro a _
    exact substTx_substTx_comm h a
  · rw [if_neg (fun hx => hm ((exists_tx_map_substTx L c _).mp hx)), if_neg hm, List.map_append]
    have : substTx c c' = c' := by simp [substTx, h]
    rw [List.map_singleton, this]

theorem upsertLedger_map_substTx {c : Transfer} :
    ∀ C : List Transfer, (∃ e ∈ C, e.tx_hash = c.tx_hash) →
      ∀ L : List Transfer, upsertLedger (L.map (substTx c)) C = upsertLedger L C := by
  intro C
  induction C with
  | nil => intro h; exact absurd h (by simp)
  | cons e C ih =>
    intro hmem L
    show upsertLedger (upsertOne (L.map (substTx c)) e) C = upsertLedger (upsertOne L e) C
    by_cases he : e.tx_hash = c.tx_hash
    · have hone : upsertOne (L.map (substTx c)) e = upsertOne L e := by
        unfold upsertOne
        by_cases hm : ∃ r' ∈ L, r'.tx_hash = e.tx_hash
        · rw [if_pos ((exists_tx_map_substTx L c _).mpr hm), if_pos hm, List.map_map]
          refine List.map_congr_left ?_
          intro a _
          exact substTx_substTx_same he a
        · rw [if_neg (fun hx => hm ((exists_tx_map_substTx L c _).mp hx)), if_neg hm]
          have hid : ∀ a ∈ L, substTx c a = id a := by
            intro a ha
            have hak : ¬ a.tx_hash = c.tx_hash := by
              intro hac
              exact hm ⟨a, ha, by rw [hac, ← he]⟩
            simp [substTx, hak]
          rw [List.map_congr_left hid, List.map_id]
      rw [hone]
    · have hmem' : ∃ e' ∈ C, e'.tx_hash = c.tx_hash := by
        obtain ⟨x, hx, hk⟩ := hmem
        rcases List.mem_cons.mp hx with rfl | hx'
        · exact absurd hk he
        · exact ⟨x, hx', hk⟩
      rw [upsertOne_map_comm he L]
      exact ih hmem' (upsertOne L e)

theorem upsertLedger_idem (C : List Transfer) :
    ∀ L : List Transfer, upsertLedger (upsertLedger L C) C = upsertLedger L C := by
  induction C with
  | nil => intro L; rfl
  | cons c C ih =>
    intro L
    show upsertLedger (upsertOne (upsertLedger (upsertOne L c) C) c) C
        = upsertLedger (upsertOne L c) C
    have hmem : ∃ r' ∈ upsertLedger (upsertOne L c) C, r'.tx_hash = c.tx_hash :=
      tx_mem_upsertLedger_mono C (upsertOne L c) (tx_mem_upsertOne L c)
    rw [upsertOne_eq_map hmem]
    by_cases hk : ∃ e ∈ C, e.tx_hash = c.tx_hash
    · rw [upsertLedger_map_substTx C hk (upsertLedger (upsertOne L c) C)]
      exact ih (upsertOne L c)
    · have hall : ∀ r ∈ upsertLedger (upsertOne L c) C, r.tx_hash = c.tx_hash → r = c := by
        refine upsertLedger_key_preserve C ?_ (upsertOne L c) ?_
        · intro e heC hek
          exact hk ⟨e, heC, hek⟩
        · exact upsertOne_key_all_eq
      rw [map_substTx_id hall]
      exact ih (upsertOne L c)

/-- C1: re-ingesting the same chunk of normalized records is a no-op — the
ledger after `ingest(ingest(L, C), C)` equals the ledger after
`ingest(L, C)`, and since the wallet aggregates and global statistics are
recomputed from the full ledger, they coincide as well. -/
theorem C1_idempotent_reingestion (L C : List Transfer) :
    upsertLedger (upsertLedger L C) C = upsertLedger L C
  ∧ buildWalletMap (upsertLedger (upsertLedger L C) C) = buildWalletMap (upsertLedger L C)
  ∧ ∀ finalBlock, computeStats finalBlock (upsertLedger (upsertLedger L C) C)
      = computeStats finalBlock (upsertLedger L C) := by
  have h := upsertLedger_idem C L
  exact ⟨h, by rw [h], fun fb => by rw [h]⟩

/-! ### String comparison lemmas -/

theorem charListLt_irrefl : ∀ l : List Char, charListLt l l = false := by
  intro l
  induction l with
  | nil => rfl
  | cons a as ih => simp [charListLt, lt_irrefl, ih]

theorem charListLt_trans : ∀ x y z : List Char,
    charListLt x y = true → charListLt y z = true → charListLt x z = true := by
  intro x
  induction x with
  | nil =>
    intro y z hxy hyz
    cases z with
    | nil =>
      cases y with
      | nil => exact hxy
      | cons b bs => simp [charListLt] at hyz
    | cons c cs => rfl
  | cons a as ih =>
    intro y z hxy hyz
    cases y with
    | nil => simp [charListLt] at hxy
    | cons b bs =>
      cases z with
      | nil => simp [charListLt] at hyz
      | cons c cs =>
        simp only [charListLt] at hxy hyz ⊢
        by_cases hab : a < b
        · by_cases hbc : b < c
          · simp [lt_trans hab hbc]
          · rw [if_neg hbc] at hyz
            by_cases hcb : c < b
            · rw [if_pos hcb] at hyz
              exact absurd hyz (by simp)
            · have hbceq : b = c := le_antisymm (not_lt.mp hcb) (not_lt.mp hbc)
              rw [← hbceq]
              simp [hab]
        · rw [if_neg hab] at hxy
          by_cases hba : b < a
          · rw [if_pos hba] at hxy
            exact absurd hxy (by simp)
          · have habeq : a = b := le_antisymm (not_lt.mp hba) (not_lt.mp hab)
            rw [if_neg hba] at hxy
            by_cases hbc : b < c
            · have hac : a < c := by rw [habeq]; exact hbc
              simp [hac]
            · rw [if_neg hbc] at hyz
              by_cases hcb : c < b
              · rw [if_pos hcb] at hyz
                exact absurd hyz (by simp)
              · have hbceq : b = c := le_antisymm (not_lt.mp hcb) (not_lt.mp hbc)
                rw [if_neg hcb] at hyz
                have hac : ¬ a < c := by rw [habeq, hbceq]; exact lt_irrefl c
                have hca : ¬ c < a := by rw [habeq, hbceq]; exact lt_irrefl c
                rw [if_neg hac, if_neg hca]
                exact ih bs cs hxy hyz

theorem charListLt_false_iff : ∀ x y : List Char,
    charListLt x y = false ↔ charListLt y x = true ∨ x = y := by
  intro x
  induction x with
  | nil =>
    intro y
    cases y with
    | nil => simp [charListLt]
    | cons c cs => simp [charListLt]
  | cons a as ih =>
    intro y
    cases y with
    | nil => simp [charListLt]
    | cons b bs =>
      simp only [charListLt]
      by_cases hab : a < b
      · have hba : ¬ b < a := lt_asymm hab
        have hne : ¬ (a :: as) = (b :: bs) := by
          intro h
          rw [List.cons.injEq] at h
          exact absurd (h.1 ▸ hab) (lt_irrefl b)
        simp [hab, hba, hne]
      · by_cases hba : b < a
        · simp [hab, hba]
        · have habeq : a = b := le_antisymm (not_lt.mp hba) (not_lt.mp hab)
          simp [hab, hba, ih bs, habeq]

theorem charListLt_asymm {x y : List Char} (h : charListLt x y = true) :
    charListLt y x = false := by
  rcases Bool.eq_false_or_eq_true (charListLt y x) with h2 | h2
  · have := charListLt_trans x y x h h2
    rw [charListLt_irrefl] at this
    exact absurd this (by simp)
  · exact h2

theorem charListLt_neg_trans {x y z : List Char}
    (h1 : charListLt x y = false) (h2 : charListLt y z = false) :
    charListLt x z = false := by
  rcases (charListLt_false_iff x y).mp h1 with hyx | heq
  · rcases (charListLt_false_iff y z).mp h2 with hzy | heq2
    · exact (charListLt_false_iff x z).mpr (Or.inl (charListLt_trans z y x hzy hyx))
    · rw [← heq2]
      exact h1
  · rw [heq]
    exact h2

theorem charListLt_nil_false {l : List Char} (h : charListLt [] l = false) : l = [] := by
  cases l with
  | nil => rfl
  | cons c cs => simp [charListLt] at h

theorem strLt_irrefl (s : String) : strLt s s = false := charListLt_irrefl s.data

theorem strLt_asymm {x y : String} (h : strLt x y = true) : strLt y x = false :=
  charListLt_asymm h

theorem strLt_neg_trans {x y z : String} (h1 : strLt x y = false)
    (h2 : strLt y z = false) : strLt x z = false :=
  charListLt_neg_trans h1 h2

theorem string_of_data_nil {s : String} (h : s.data = []) : s = "" := by
  cases s with
  | mk d =>
    cases h
    rfl

/-! ### Wallet aggregation lemmas -/

theorem mapGet_mapSet (m : List (String × WalletAgg)) (k : String) (v : WalletAgg)
    (w : String) : mapGet (mapSet m k v) w = if w = k then some v else mapGet m w := by
  induction m with
  | nil =>
    by_cases h : w = k
    · simp [mapSet, mapGet, h]
    · simp [mapSet, mapGet, h, Ne.symm h]
  | cons p rest ih =>
    by_cases hpk : p.1 = k
    · by_cases hwk : w = k
      · simp [mapSet, mapGet, hpk, hwk]
      · simp [mapSet, mapGet, hpk, hwk, Ne.symm hwk]
    · by_cases hpw : p.1 = w
      · have hwk : ¬ w = k := fun h => hpk (hpw.trans h)
        simp [mapSet, mapGet, hpk, hpw, hwk]
      · simp [mapSet, mapGet, hpk, hpw, ih]

theorem walletFold_cons (m : List (String × WalletAgg)) (t : Transfer) (ts : List Transfer) :
    walletFold m (t :: ts)
      = walletFold (mapSet m t.from_address
          (walletStep ((mapGet m t.from_address).getD emptyAgg) t)) ts := rfl

theorem walletFold_getD (ts : List Transfer) :
    ∀ (m : List (String × WalletAgg)) (w : String),
      (mapGet (walletFold m ts) w).getD emptyAgg
        = List.foldl walletStep ((mapGet m w).getD emptyAgg)
            (ts.filter fun t => decide (t.from_address = w)) := by
  induction ts with
  | nil => intro m w; rfl
  | cons t ts ih =>
    intro m w
    rw [walletFold_cons, ih, mapGet_mapSet]
    by_cases hw : t.from_address = w
    · simp [List.filter_cons, hw]
    · have hw' : ¬ w = t.from_address := fun h => hw h.symm
      simp [List.filter_cons, hw, hw']

theorem keys_mapSet (m : List (String × WalletAgg)) (k : String) (v : WalletAgg) :
    (mapSet m k v).map Prod.fst
      = if k ∈ m.map Prod.fst then m.map Prod.fst else m.map Prod.fst ++ [k] := by
  induction m with
  | nil => simp [mapSet]
  | cons p rest ih =>
    by_cases hpk : p.1 = k
    · simp [mapSet, hpk]
    · by_cases hk : k ∈ rest.map Prod.fst
      · simp [mapSet, hpk, ih, hk, Ne.symm hpk]
      · simp [mapSet, hpk, ih, hk, Ne.symm hpk]

theorem mem_keys_mapSet (m : List (String × WalletAgg)) (k : String) (v : WalletAgg)
    (w : String) :
    w ∈ (mapSet m k v).map Prod.fst ↔ w ∈ m.map Prod.fst ∨ w = k := by
  rw [keys_mapSet]
  by_cases hk : k ∈ m.map Prod.fst
  · rw [if_pos hk]
    constructor
    · exact Or.inl
    · rintro (h | rfl)
      · exact h
      · exact hk
  · rw [if_neg hk]
    simp

theorem nodupKeys_mapSet {m : List (String × WalletAgg)} (k : String) (v : WalletAgg)
    (h : (m.map Prod.fst).Nodup) : ((mapSet m k v).map Prod.fst).Nodup := by
  rw [keys_mapSet]
  by_cases hk : k ∈ m.map Prod.fst
  · rw [if_pos hk]
    exact h
  · rw [if_neg hk]
    simp [List.nodup_append, h, hk]

theorem nodupKeys_walletFold (ts : List Transfer) :
    ∀ m, (m.map Prod.fst).Nodup → ((walletFold m ts).map Prod.fst).Nodup := by
  induction ts with
  | nil => intro m h; exact h
  | cons t ts ih =>
    intro m h
    exact ih _ (nodupKeys_mapSet _ _ h)

theorem mem_keys_walletFold (ts : List Transfer) :
    ∀ (m) (w : String), w ∈ (walletFold m ts).map Prod.fst
      ↔ w ∈ m.map Prod.fst ∨ ∃ t ∈ ts, t.from_address = w := by
  induction ts with
  | nil => intro m w; simp [walletFold]
  | cons t ts ih =>
    intro m w
    rw [walletFold_cons, ih, mem_keys_mapSet]
    simp only [List.mem_cons]
    constructor
    · rintro ((h | rfl) | ⟨x, hx, hw⟩)
      · exact Or.inl h
      · exact Or.inr ⟨t, Or.inl rfl, rfl⟩
      · exact Or.inr ⟨x, Or.inr hx, hw⟩
    · rintro (h | ⟨x, (rfl | hx), hw⟩)
      · exact Or.inl (Or.inl h)
      · exact Or.inl (Or.inr hw.symm)
      · exact Or.inr ⟨x, hx, hw⟩

theorem mapGet_of_mem : ∀ {m : List (String × WalletAgg)}, (m.map Prod.fst).Nodup →
    ∀ {w d}, (w, d) ∈ m → mapGet m w = some d := by
  intro m
  induction m with
  | nil => intro _ w d h; simp at h
  | cons p rest ih =>
    intro hnd w d hmem
    rcases List.mem_cons.mp hmem with heq | hmem'
    · rw [← heq]
      simp [mapGet]
    · have hrest : w ∈ rest.map Prod.fst := by
        have := List.mem_map_of_mem Prod.fst hmem'
        simpa using this
      have hp : p.1 ≠ w := by
        intro h
        have hnotin : p.1 ∉ rest.map Prod.fst := (List.nodup_cons.mp (by simpa using hnd)).1
        rw [h] at hnotin
        exact hnotin hrest
      have hnd' : (rest.map Prod.fst).Nodup := (List.nodup_cons.mp (by simpa using hnd)).2
      simp only [mapGet, if_neg hp]
      exact ih hnd' hmem'

theorem buildWalletMap_get {L : List Transfer} {w : String} {d : WalletAgg}
    (hmem : (w, d) ∈ buildWalletMap L) :
    d = List.foldl walletStep emptyAgg (L.filter fun t => decide (t.from_address = w)) := by
  have hnd : ((buildWalletMap L).map Prod.fst).Nodup := nodupKeys_walletFold L [] (by simp)
  have h1 : mapGet (buildWalletMap L) w = some d := mapGet_of_mem hnd hmem
  have h2 := walletFold_getD L [] w
  simp only [buildWalletMap] at h1
  rw [h1] at h2
  simpa [mapGet] using h2

theorem foldl_walletStep_count (fts : List Transfer) :
    ∀ d : WalletAgg, (List.foldl walletStep d fts).count = d.count + fts.length := by
  induction fts with
  | nil => intro d; simp
  | cons t fts ih =>
    intro d
    rw [List.foldl_cons, ih]
    simp [walletStep]
    omega

theorem foldl_walletStep_total (fts : List Transfer) :
    ∀ d : WalletAgg, (List.foldl walletStep d fts).total
      = d.total + (fts.map (·.amount_usdc)).sum := by
  induction fts with
  | nil => intro d; simp
  | cons t fts ih =>
    intro d
    rw [List.foldl_cons, ih]
    simp [walletStep]
    ring

theorem foldl_walletStep_last_mem (fts : List Transfer) :
    ∀ d : WalletAgg, (List.foldl walletStep d fts).lastBidTime = d.lastBidTime
      ∨ (List.foldl walletStep d fts).lastBidTime ∈ fts.map (·.block_time) := by
  induction fts with
  | nil => intro d; exact Or.inl rfl
  | cons t fts ih =>
    intro d
    rw [List.foldl_cons, List.map_cons]
    rcases ih (walletStep d t) with h | h
    · rw [h]
      by_cases hlt : strLt d.lastBidTime t.block_time
      · exact Or.inr (by simp [walletStep, hlt])
      · exact Or.inl (by simp [walletStep, hlt])
    · exact Or.inr (List.mem_cons_of_mem _ h)

theorem foldl_walletStep_last_ge_start (fts : List Transfer) :
    ∀ d : WalletAgg, strLt (List.foldl walletStep d fts).lastBidTime d.lastBidTime = false := by
  induction fts with
  | nil => intro d; exact strLt_irrefl _
  | cons t fts ih =>
    intro d
    rw [List.foldl_cons]
    refine strLt_neg_trans (ih (walletStep d t)) ?_
    by_cases hlt : strLt d.lastBidTime t.block_time
    · have h : (walletStep d t).lastBidTime = t.block_time := by simp [walletStep, hlt]
      rw [h]
      exact strLt_asymm hlt
    · have h : (walletStep d t).lastBidTime = d.lastBidTime := by simp [walletStep, hlt]
      rw [h]
      exact strLt_irrefl _

theorem foldl_walletStep_last_ub (fts : List Transfer) :
    ∀ d : WalletAgg, ∀ s ∈ fts.map (·.block_time),
      strLt (List.foldl walletStep d fts).lastBidTime s = false := by
  induction fts with
  | nil => intro d s hs; simp at hs
  | cons t fts ih =>
    intro d s hs
    rw [List.foldl_cons]
    rw [List.map_cons, List.mem_cons] at hs
    rcases hs with rfl | hs
    · refine strLt_neg_trans (foldl_walletStep_last_ge_start fts (walletStep d t)) ?_
      by_cases hlt : strLt d.lastBidTime t.block_time
      · have h : (walletStep d t).lastBidTime = t.block_time := by simp [walletStep, hlt]
        rw [h]
        exact strLt_irrefl _
      · have h : (walletStep d t).lastBidTime = d.lastBidTime := by simp [walletStep, hlt]
        rw [h]
        simp only [Bool.not_eq_true] at hlt
        exact hlt
    · exact ih (walletStep d t) s hs

theorem sum_totals_mapSet (m : List (String × WalletAgg)) (k : String) (v : WalletAgg) :
    ((mapSet m k v).map fun p => p.2.total).sum
      = (m.map fun p => p.2.total).sum + v.total - ((mapGet m k).getD emptyAgg).total := by
  induction m with
  | nil => simp [mapSet, mapGet, emptyAgg]
  | cons p rest ih =>
    by_cases hpk : p.1 = k
    · simp only [mapSet, mapGet, if_pos hpk, List.map_cons, List.sum_cons, Option.getD_some]
      ring
    · simp only [mapSet, mapGet, if_neg hpk, List.map_cons, List.sum_cons, ih]
      ring

theorem sum_totals_walletFold (ts : List Transfer) :
    ∀ m, ((walletFold m ts).map fun p => p.2.total).sum
      = (m.map fun p => p.2.total).sum + (ts.map (·.amount_usdc)).sum := by
  induction ts with
  | nil => intro m; simp [walletFold]
  | cons t ts ih =>
    intro m
    rw [walletFold_cons, ih, sum_totals_mapSet]
    simp [walletStep]
    ring

/-- C2: aggregate correctness — for every ledger state L, the sum of the
per-wallet totals equals the sum of the record amounts, each wallet row's
count is the number of ledger records sent from that wallet, and each
wallet row's last-activity time is the maximum (no record's time exceeds
it, and it is one of them) of that wallet's block times under the string
order the code compares with. -/
theorem C2_aggregate_correctness (L : List Transfer) :
    ((buildWalletMap L).map fun p => p.2.total).sum = (L.map (·.amount_usdc)).sum
  ∧ (∀ w d, (w, d) ∈ buildWalletMap L →
      d.count = (L.filter fun t => decide (t.from_address = w)).length)
  ∧ (∀ w d, (w, d) ∈ buildWalletMap L →
      d.lastBidTime ∈ ((L.filter fun t => decide (t.from_address = w)).map (·.block_time))
      ∧ ∀ s ∈ ((L.filter fun t => decide (t.from_address = w)).map (·.block_time)),
          strLt d.lastBidTime s = false) := by
  refine ⟨?_, ?_, ?_⟩
  · have h := sum_totals_walletFold L []
    simpa [buildWalletMap] using h
  · intro w d hmem
    rw [buildWalletMap_get hmem, foldl_walletStep_count]
    simp [emptyAgg]
  · intro w d hmem
    have hd := buildWalletMap_get hmem
    refine ⟨?_, ?_⟩
    · rcases foldl_walletStep_last_mem (L.filter fun t => decide (t.from_address = w)) emptyAgg
        with h | h
      · have hex : ∃ t ∈ L, t.from_address = w := by
          have hw : w ∈ (walletFold [] L).map Prod.fst := by
            have := List.mem_map_of_mem Prod.fst hmem
            simpa [buildWalletMap] using this
          rcases (mem_keys_walletFold L [] w).mp hw with h0 | hex
          · simp at h0
          · exact hex
        obtain ⟨t0, ht0, hfw⟩ := hex
        have htf : t0 ∈ L.filter fun t => decide (t.from_address = w) :=
          List.mem_filter.mpr ⟨ht0, by simp [hfw]⟩
        have hub := foldl_walletStep_last_ub (L.filter fun t => decide (t.from_address = w))
          emptyAgg t0.block_time (List.mem_map_of_mem _ htf)
        rw [h] at hub
        have hub' : strLt "" t0.block_time = false := hub
        have ht0nil : t0.block_time = "" :=
          string_of_data_nil (charListLt_nil_false hub')
        rw [hd, h]
        have hmm : emptyAgg.lastBidTime = t0.block_time := by rw [ht0nil]; rfl
        rw [hmm]
        exact List.mem_map_of_mem _ htf
      · rw [hd]
        exact h
    · intro s hs
      rw [hd]
      exact foldl_walletStep_last_ub _ emptyAgg s hs

/-- Witness for C2 at the one-record ledger with sender "a", amount 5,
block time "t1". -/
theorem C2_aggregate_correctness_witness :
    ((buildWalletMap ([⟨"h1", 1, "a", "cca", 5, "t1"⟩] : List Transfer)).map
        fun p => p.2.total).sum
      = (([⟨"h1", 1, "a", "cca", 5, "t1"⟩] : List Transfer).map (·.amount_usdc)).sum
  ∧ (walletStep emptyAgg ⟨"h1", 1, "a", "cca", 5, "t1"⟩).count
      = (([⟨"h1", 1, "a", "cca", 5, "t1"⟩] : List Transfer).filter
          fun t => decide (t.from_address = "a")).length
  ∧ (walletStep emptyAgg ⟨"h1", 1, "a", "cca", 5, "t1"⟩).lastBidTime
      ∈ ((([⟨"h1", 1, "a", "cca", 5, "t1"⟩] : List Transfer).filter
          fun t => decide (t.from_address = "a")).map (·.block_time)) := by
  have h := C2_aggregate_correctness [⟨"h1", 1, "a", "cca", 5, "t1"⟩]
  have hmem : ("a", walletStep emptyAgg ⟨"h1", 1, "a", "cca", 5, "t1"⟩)
      ∈ buildWalletMap [⟨"h1", 1, "a", "cca", 5, "t1"⟩] := by
    simp [buildWalletMap, walletFold, mapGet, mapSet]
  exact ⟨h.1, h.2.1 "a" _ hmem, (h.2.2 "a" _ hmem).1⟩

/-- C7: the degenerate-input policy of the statistics computation — empty
amount list gives mean 0 and median 0, a single-element list gives mean and
median equal to that element, the median of the even-length list
[10, 20, 30, 40] is 25 (average of the two middle elements of the sorted
list), and a zero total amount gives top-10 and top-50 shares of 0 with no
division error. -/
theorem C7_stats_edge_cases (fb : ℕ) (x : ℚ) (t : Transfer) (L : List Transfer)
    (htotal : (L.map (·.amount_usdc)).foldl (· + ·) 0 = 0) :
    computeMedian [] = 0
  ∧ (computeStats fb []).avg_bid = 0
  ∧ (computeStats fb []).median_bid = 0
  ∧ computeMedian [x] = x
  ∧ (computeStats fb [t]).avg_bid = t.amount_usdc
  ∧ (computeStats fb [t]).median_bid = t.amount_usdc
  ∧ computeMedian [10, 20, 30, 40] = 25
  ∧ (computeStats fb L).top10_share = 0
  ∧ (computeStats fb L).top50_share = 0 := by
  refine ⟨rfl, rfl, rfl, ?_, ?_, ?_, ?_, ?_, ?_⟩
  · simp [computeMedian, jsSort, jsInsert]
  · simp [computeStats]
  · simp [computeStats, computeMedian, jsSort, jsInsert]
  · norm_num [computeMedian, jsSort, jsInsert]
  · simp only [computeStats]
    rw [htotal]
    simp
  · simp only [computeStats]
    rw [htotal]
    simp

/-- Witness for C7 at x = 7, a concrete transfer, and the empty ledger. -/
theorem C7_stats_edge_cases_witness :
    computeMedian [] = 0
  ∧ computeMedian [(7 : ℚ)] = 7
  ∧ computeMedian [10, 20, 30, 40] = 25
  ∧ (computeStats 0 []).top10_share = 0
  ∧ (computeStats 0 []).top50_share = 0 :=
  have h := C7_stats_edge_cases 0 7 ⟨"h", 1, "a", "c", 9, "t"⟩ [] rfl
  ⟨h.1, h.2.2.2.1, h.2.2.2.2.2.2.1, h.2.2.2.2.2.2.2.1, h.2.2.2.2.2.2.2.2⟩

/-! ### Chunk loop lemmas -/

theorem chunkLoopAux_succ_eq (chunkSize chunksPerCall : ℕ) (fetch : ℕ → ℕ → ℕ → FetchResult)
    (currentBlock : ℕ) (nowIso : String) (fuel : ℕ) (s : LoopState) :
    chunkLoopAux chunkSize chunksPerCall fetch currentBlock nowIso (fuel + 1) s
      = if s.cursor ≤ currentBlock ∧ s.chunksProcessed < chunksPerCall then
          match attemptLoop fetch s.cursor (chunkEndFor chunkSize currentBlock s.cursor)
              s.rateLimitHits with
          | (some logs, hits) =>
            chunkLoopAux chunkSize chunksPerCall fetch currentBlock nowIso fuel
              { cursor := chunkEndFor chunkSize currentBlock s.cursor + 1
                chunksProcessed := s.chunksProcessed + 1
                rateLimitHits := hits
                newTransfers := s.newTransfers ++ logs.map (normalizeLog nowIso)
                fetchCalls := s.fetchCalls
                  ++ [(s.cursor, chunkEndFor chunkSize currentBlock s.cursor)] }
          | (none, hits) =>
            if 3 ≤ hits then
              { s with
                  rateLimitHits := hits,
                  fetchCalls := s.fetchCalls
                    ++ [(s.cursor, chunkEndFor chunkSize currentBlock s.cursor)] }
            else
              chunkLoopAux chunkSize chunksPerCall fetch currentBlock nowIso fuel
                { cursor := chunkEndFor chunkSize currentBlock s.cursor + 1
                  chunksProcessed := s.chunksProcessed + 1
                  rateLimitHits := hits
                  newTransfers := s.newTransfers
                  fetchCalls := s.fetchCalls
                    ++ [(s.cursor, chunkEndFor chunkSize currentBlock s.cursor)] }
        else s := rfl

theorem chunkLoop_step_success (chunkSize chunksPerCall : ℕ)
    (fetch : ℕ → ℕ → ℕ → FetchResult) (currentBlock : ℕ) (nowIso : String) (fuel : ℕ)
    {s : LoopState} {logs : List LogEntry} {hits : ℕ}
    (hguard : s.cursor ≤ currentBlock ∧ s.chunksProcessed < chunksPerCall)
    (hres : attemptLoop fetch s.cursor (chunkEndFor chunkSize currentBlock s.cursor)
        s.rateLimitHits = (some logs, hits)) :
    chunkLoopAux chunkSize chunksPerCall fetch currentBlock nowIso (fuel + 1) s
      = chunkLoopAux chunkSize chunksPerCall fetch currentBlock nowIso fuel
          { cursor := chunkEndFor chunkSize currentBlock s.cursor + 1
            chunksProcessed := s.chunksProcessed + 1
            rateLimitHits := hits
            newTransfers := s.newTransfers ++ logs.map (normalizeLog nowIso)
            fetchCalls := s.fetchCalls
              ++ [(s.cursor, chunkEndFor chunkSize currentBlock s.cursor)] } := by
  rw [chunkLoopAux_succ_eq, if_pos hguard, hres]

theorem chunkLoop_step_fail_skip (chunkSize chunksPerCall : ℕ)
    (fetch : ℕ → ℕ → ℕ → FetchResult) (currentBlock : ℕ) (nowIso : String) (fuel : ℕ)
    {s : LoopState} {hits : ℕ}
    (hguard : s.cursor ≤ currentBlock ∧ s.chunksProcessed < chunksPerCall)
    (hres : attemptLoop fetch s.cursor (chunkEndFor chunkSize currentBlock s.cursor)
        s.rateLimitHits = (none, hits))
    (hlt : hits < 3) :
    chunkLoopAux chunkSize chunksPerCall fetch currentBlock nowIso (fuel + 1) s
      = chunkLoopAux chunkSize chunksPerCall fetch currentBlock nowIso fuel
          { cursor := chunkEndFor chunkSize currentBlock s.cursor + 1
            chunksProcessed := s.chunksProcessed + 1
            rateLimitHits := hits
            newTransfers := s.newTransfers
            fetchCalls := s.fetchCalls
              ++ [(s.cursor, chunkEndFor chunkSize currentBlock s.cursor)] } := by
  rw [chunkLoopAux_succ_eq, if_pos hguard, hres]
  exact if_neg (Nat.not_le.mpr hlt)

theorem chunkLoop_step_fail_stop (chunkSize chunksPerCall : ℕ)
    (fetch : ℕ → ℕ → ℕ → FetchResult) (currentBlock : ℕ) (nowIso : String) (fuel : ℕ)
    {s : LoopState} {hits : ℕ}
    (hguard : s.cursor ≤ currentBlock ∧ s.chunksProcessed < chunksPerCall)
    (hres : attemptLoop fetch s.cursor (chunkEndFor chunkSize currentBlock s.cursor)
        s.rateLimitHits = (none, hits))
    (hge : 3 ≤ hits) :
    chunkLoopAux chunkSize chunksPerCall fetch currentBlock nowIso (fuel + 1) s
      = { s with
            rateLimitHits := hits,
            fetchCalls := s.fetchCalls
              ++ [(s.cursor, chunkEndFor chunkSize currentBlock s.cursor)] } := by
  rw [chunkLoopAux_succ_eq, if_pos hguard, hres]
  exact if_pos hge

theorem le_chunkEndFor {chunkSize currentBlock cursor : ℕ} (h : cursor ≤ currentBlock) :
    cursor ≤ chunkEndFor chunkSize currentBlock cursor := by
  unfold chunkEndFor
  split
  · exact h
  · exact Nat.le_add_right _ _

theorem chunkLoopAux_cursor_mono (chunkSize chunksPerCall : ℕ)
    (fetch : ℕ → ℕ → ℕ → FetchResult) (currentBlock : ℕ) (nowIso : String) :
    ∀ (fuel : ℕ) (s : LoopState),
      s.cursor ≤ (chunkLoopAux chunkSize chunksPerCall fetch currentBlock nowIso fuel s).cursor := by
  intro fuel
  induction fuel with
  | zero => intro s; exact le_refl _
  | succ fuel ih =>
    intro s
    by_cases hguard : s.cursor ≤ currentBlock ∧ s.chunksProcessed < chunksPerCall
    · have hce : s.cursor ≤ chunkEndFor chunkSize currentBlock s.cursor :=
        le_chunkEndFor hguard.1
      rcases hres : attemptLoop fetch s.cursor (chunkEndFor chunkSize currentBlock s.cursor)
          s.rateLimitHits with ⟨res, hits⟩
      cases res with
      | some logs =>
        rw [chunkLoop_step_success chunkSize chunksPerCall fetch currentBlock nowIso fuel
          hguard hres]
        refine le_trans ?_ (ih ⟨chunkEndFor chunkSize currentBlock s.cursor + 1,
          s.chunksProcessed + 1, hits, s.newTransfers ++ logs.map (normalizeLog nowIso),
          s.fetchCalls ++ [(s.cursor, chunkEndFor chunkSize currentBlock s.cursor)]⟩)
        exact le_trans hce (Nat.le_succ _)
      | none =>
        by_cases hge : 3 ≤ hits
        · rw [chunkLoop_step_fail_stop chunkSize chunksPerCall fetch currentBlock nowIso fuel
            hguard hres hge]
        · rw [chunkLoop_step_fail_skip chunkSize chunksPerCall fetch currentBlock nowIso fuel
            hguard hres (Nat.not_le.mp hge)]
          refine le_trans ?_ (ih ⟨chunkEndFor chunkSize currentBlock s.cursor + 1,
            s.chunksProcessed + 1, hits, s.newTransfers,
            s.fetchCalls ++ [(s.cursor, chunkEndFor chunkSize currentBlock s.cursor)]⟩)
          exact le_trans hce (Nat.le_succ _)
    · rw [chunkLoopAux_succ_eq, if_neg hguard]

theorem runLoop_cursor_mono (chunkSize chunksPerCall : ℕ) (inp : SyncInputs) (cursor0 : ℕ) :
    cursor0 ≤ (runLoop chunkSize chunksPerCall inp cursor0).cursor :=
  chunkLoopAux_cursor_mono chunkSize chunksPerCall inp.fetch inp.currentBlock inp.nowIso
    chunksPerCall ⟨cursor0, 0, 0, [], []⟩

theorem attemptLoop_all_rl {fetch : ℕ → ℕ → ℕ → FetchResult} {fromBlock toBlock : ℕ}
    (h : ∀ a, fetch fromBlock toBlock a = .rateLimited) (hits : ℕ) :
    attemptLoop fetch fromBlock toBlock hits = (none, hits + 3) := by
  simp [attemptLoop, attemptLoopAux, h]

theorem resumeCursor_pos (lastProcessedBlock : ℕ) : 1 ≤ resumeCursor lastProcessedBlock := by
  unfold resumeCursor
  split
  · norm_num [GENESIS_BLOCK]
  · omega

/-! ### Run-level lemmas -/

theorem syncRun_eq_main (chunkSize chunksPerCall : ℕ) {inp : SyncInputs} (db : Db)
    (hsec : inp.secretOk = true) (hres : inp.reset = none)
    (hrange : resumeCursor (getLastProcessedBlock db) ≤ inp.currentBlock) :
    syncRun chunkSize chunksPerCall inp db
      = syncMain chunkSize chunksPerCall inp db (getLastProcessedBlock db) := by
  simp only [syncRun, hsec, hres, if_true]
  rw [if_neg (Nat.not_lt.mpr hrange)]

theorem finishRun_fst (chunkSize chunksPerCall : ℕ) (inp : SyncInputs) (db : Db)
    (lastProcessedBlock : ℕ) (final : LoopState) (ledger' : List Transfer) :
    (finishRun chunkSize chunksPerCall inp db lastProcessedBlock final ledger').1
      = .ok (mkSummary chunkSize chunksPerCall lastProcessedBlock inp.currentBlock final
          ledger'.length) := rfl

theorem finishRun_checkpoint_of_save_ok (chunkSize chunksPerCall : ℕ) {inp : SyncInputs}
    (db : Db) (lastProcessedBlock : ℕ) (final : LoopState) (ledger' : List Transfer)
    (h : inp.saveOk = true) :
    (finishRun chunkSize chunksPerCall inp db lastProcessedBlock final ledger').2.checkpoint
      = some (final.cursor - 1) := by
  unfold finishRun saveLastProcessedBlock
  rw [h]
  rfl

theorem finishRun_checkpoint_of_save_fail (chunkSize chunksPerCall : ℕ) {inp : SyncInputs}
    (db : Db) (lastProcessedBlock : ℕ) (final : LoopState) (ledger' : List Transfer)
    (h : inp.saveOk = false) :
    (finishRun chunkSize chunksPerCall inp db lastProcessedBlock final ledger').2.checkpoint
      = db.checkpoint := by
  unfold finishRun saveLastProcessedBlock
  rw [h]
  rfl

theorem syncMain_checkpoint_mono (chunkSize chunksPerCall : ℕ) (inp : SyncInputs) (db : Db) :
    getLastProcessedBlock db
      ≤ getLastProcessedBlock
          (syncMain chunkSize chunksPerCall inp db (getLastProcessedBlock db)).2 := by
  have hcur : resumeCursor (getLastProcessedBlock db)
      ≤ (runLoop chunkSize chunksPerCall inp (resumeCursor (getLastProcessedBlock db))).cursor :=
    runLoop_cursor_mono chunkSize chunksPerCall inp _
  have hlast : getLastProcessedBlock db
      ≤ (runLoop chunkSize chunksPerCall inp (resumeCursor (getLastProcessedBlock db))).cursor
        - 1 := by
    rcases Nat.eq_zero_or_pos (getLastProcessedBlock db) with h0 | hpos
    · rw [h0]
      exact Nat.zero_le _
    · have heq : resumeCursor (getLastProcessedBlock db) = getLastProcessedBlock db + 1 := by
        unfold resumeCursor
        rw [if_neg (Nat.pos_iff_ne_zero.mp hpos)]
      omega
  have hfin : ∀ ledger' : List Transfer,
      getLastProcessedBlock db ≤ getLastProcessedBlock
        (finishRun chunkSize chunksPerCall inp db (getLastProcessedBlock db)
          (runLoop chunkSize chunksPerCall inp (resumeCursor (getLastProcessedBlock db)))
          ledger').2 := by
    intro ledger'
    rcases Bool.eq_false_or_eq_true inp.saveOk with hs | hs
    · rw [show getLastProcessedBlock
          (finishRun chunkSize chunksPerCall inp db (getLastProcessedBlock db) _ ledger').2
          = (runLoop chunkSize chunksPerCall inp
              (resumeCursor (getLastProcessedBlock db))).cursor - 1 from by
        unfold getLastProcessedBlock
        rw [finishRun_checkpoint_of_save_ok chunkSize chunksPerCall db _ _ ledger' hs]]
      exact hlast
    · rw [show getLastProcessedBlock
          (finishRun chunkSize chunksPerCall inp db (getLastProcessedBlock db) _ ledger').2
          = getLastProcessedBlock db from by
        unfold getLastProcessedBlock
        rw [finishRun_checkpoint_of_save_fail chunkSize chunksPerCall db _ _ ledger' hs]]
  simp only [syncMain]
  split
  · split
    · exact le_refl _
    · exact hfin _
  · exact hfin _

theorem syncRun_checkpoint_mono (chunkSize chunksPerCall : ℕ) (inp : SyncInputs) (db : Db)
    (hres : inp.reset = none) :
    getLastProcessedBlock db
      ≤ getLastProcessedBlock (syncRun chunkSize chunksPerCall inp db).2 := by
  by_cases hsec : inp.secretOk = true
  · by_cases hup : inp.currentBlock < resumeCursor (getLastProcessedBlock db)
    · have h : syncRun chunkSize chunksPerCall inp db
          = (.upToDate inp.currentBlock (getLastProcessedBlock db), db) := by
        simp only [syncRun, hsec, hres, if_true]
        rw [if_pos hup]
      rw [h]
    · rw [syncRun_eq_main chunkSize chunksPerCall db hsec hres (Nat.not_lt.mp hup)]
      exact syncMain_checkpoint_mono chunkSize chunksPerCall inp db
  · have h : syncRun chunkSize chunksPerCall inp db = (.unauthorized, db) := by
      simp only [syncRun]
      rw [if_neg hsec]
    rw [h]

theorem runLoop_first_chunk_all_rl (chunkSize chunksPerCall : ℕ) (inp : SyncInputs)
    (cursor0 : ℕ) (hcpc : 0 < chunksPerCall) (hc0 : cursor0 ≤ inp.currentBlock)
    (hrl : ∀ e a, inp.fetch cursor0 e a = FetchResult.rateLimited) :
    runLoop chunkSize chunksPerCall inp cursor0
      = ⟨cursor0, 0, 3, [], [(cursor0, chunkEndFor chunkSize inp.currentBlock cursor0)]⟩ := by
  obtain ⟨n, hn⟩ := Nat.exists_eq_succ_of_ne_zero (Nat.pos_iff_ne_zero.mp hcpc)
  unfold runLoop
  rw [hn]
  rw [@chunkLoop_step_fail_stop chunkSize (n + 1) inp.fetch inp.currentBlock inp.nowIso n
    ⟨cursor0, 0, 0, [], []⟩ 3 ⟨hc0, Nat.succ_pos n⟩
    (show attemptLoop inp.fetch cursor0 (chunkEndFor chunkSize inp.currentBlock cursor0) 0
        = (none, 3) by simpa using attemptLoop_all_rl (fun a => hrl _ a) 0)
    (by omega)]
  rfl

/-! ### Claim theorems on the run -/

/-- C4: across any sequence of invocations whose inputs carry no `reset`
parameter, the stored checkpoint value is non-decreasing; the explicit
administrative reset is the sole excepted path. -/
theorem C4_checkpoint_monotonic (chunkSize chunksPerCall : ℕ) (db : Db)
    (invocations : List SyncInputs) (h : ∀ i ∈ invocations, i.reset = none) :
    getLastProcessedBlock db
      ≤ getLastProcessedBlock (runSeq chunkSize chunksPerCall db invocations) := by
  induction invocations generalizing db with
  | nil => exact le_refl _
  | cons i rest ih =>
    exact le_trans
      (syncRun_checkpoint_mono chunkSize chunksPerCall i db (h i (List.mem_cons_self i rest)))
      (ih (syncRun chunkSize chunksPerCall i db).2 fun j hj => h j (List.mem_cons_of_mem i hj))

/-- Witness for C4: one reset-free invocation against a concrete store. -/
theorem C4_checkpoint_monotonic_witness :
    getLastProcessedBlock ⟨some 41610000, [], none, none⟩
      ≤ getLastProcessedBlock (runSeq 2000 100 ⟨some 41610000, [], none, none⟩
          [⟨true, none, 41610000, fun _ _ _ => FetchResult.success [], "", fun _ => none,
            fun _ => "", none, true⟩]) := by
  refine C4_checkpoint_monotonic 2000 100 _ _ ?_
  intro i hi
  rw [List.mem_singleton] at hi
  rw [hi]

/-- C5: a failing ledger upsert aborts the invocation with the error
response and leaves the whole store, in particular the checkpoint,
unchanged — the checkpoint save is never reached, so the cursor is never
advanced past a block whose events failed to persist. -/
theorem C5_ledger_write_failure_aborts (chunkSize chunksPerCall : ℕ) (inp : SyncInputs)
    (db : Db) (msg : String)
    (hsec : inp.secretOk = true) (hres : inp.reset = none)
    (hrange : resumeCursor (getLastProcessedBlock db) ≤ inp.currentBlock)
    (herr : inp.insertErr = some msg)
    (hnew : 0 < (runLoop chunkSize chunksPerCall inp
        (resumeCursor (getLastProcessedBlock db))).newTransfers.length) :
    (syncRun chunkSize chunksPerCall inp db).1 = .serverError ("Failed to insert: " ++ msg)
  ∧ (syncRun chunkSize chunksPerCall inp db).2 = db := by
  rw [syncRun_eq_main chunkSize chunksPerCall db hsec hres hrange]
  have h : syncMain chunkSize chunksPerCall inp db (getLastProcessedBlock db)
      = (.serverError ("Failed to insert: " ++ msg), db) := by
    simp only [syncMain]
    rw [if_pos hnew, herr]
  rw [h]
  exact ⟨rfl, rfl⟩

/-- Witness for C5: a run that fetched one transfer and whose ledger
upsert fails. -/
theorem C5_ledger_write_failure_aborts_witness :
    (syncRun 2000 100
        ⟨true, none, 41610001,
          fun _ _ _ => FetchResult.success [⟨"0xh", 41610001, "0xsender", 1000000⟩],
          "t", fun _ => none, fun _ => "", some "boom", true⟩
        ⟨some 41610000, [], none, none⟩).1 = .serverError ("Failed to insert: " ++ "boom")
  ∧ (syncRun 2000 100
        ⟨true, none, 41610001,
          fun _ _ _ => FetchResult.success [⟨"0xh", 41610001, "0xsender", 1000000⟩],
          "t", fun _ => none, fun _ => "", some "boom", true⟩
        ⟨some 41610000, [], none, none⟩).2 = ⟨some 41610000, [], none, none⟩ :=
  C5_ledger_write_failure_aborts 2000 100
    ⟨true, none, 41610001,
      fun _ _ _ => FetchResult.success [⟨"0xh", 41610001, "0xsender", 1000000⟩],
      "t", fun _ => none, fun _ => "", some "boom", true⟩
    ⟨some 41610000, [], none, none⟩ "boom" rfl rfl (by decide) rfl (by decide)

/-- C3 counterexample: with `getLogs` failing on the whole first chunk
(blocks 41610001-41612001) with a non-rate-limit error and succeeding
afterwards, the run still advances the cursor past the failed chunk and
saves checkpoint 41614002 — the chunk loop did not stop, so blocks at or
below the saved checkpoint were never scanned for events. -/
theorem C3_counterexample :
    (fun f _ _ => if f = 41610001 then FetchResult.otherError else FetchResult.success [])
        41610001 41612001 0 = FetchResult.otherError
  ∧ getLastProcessedBlock (syncRun 2000 100
      ⟨true, none, 41614002,
        fun f _ _ => if f = 41610001 then FetchResult.otherError else FetchResult.success [],
        "", fun _ => none, fun _ => "", none, true⟩
      ⟨some 41610000, [], none, none⟩).2 = 41614002
  ∧ 41612001 < 41614002 := by
  refine ⟨by decide, by decide, by decide⟩

/-- C3 (amended): when every attempt for the current chunk fails
(`attemptLoop` yields no logs), the chunk loop does not stop unless the
cumulative rate-limit hit count has reached 3: below 3 hits the chunk is
skipped — the loop continues with the cursor advanced past the failed
chunk, which is never retried — and only at 3 or more hits does the loop
stop with the cursor unchanged. -/
theorem C3_transient_error_fail_skip (chunkSize chunksPerCall fuel : ℕ)
    (fetch : ℕ → ℕ → ℕ → FetchResult) (currentBlock : ℕ) (nowIso : String)
    (s : LoopState) (hits : ℕ)
    (hguard : s.cursor ≤ currentBlock ∧ s.chunksProcessed < chunksPerCall)
    (hfail : attemptLoop fetch s.cursor (chunkEndFor chunkSize currentBlock s.cursor)
        s.rateLimitHits = (none, hits)) :
    (hits < 3 →
      chunkLoopAux chunkSize chunksPerCall fetch currentBlock nowIso (fuel + 1) s
        = chunkLoopAux chunkSize chunksPerCall fetch currentBlock nowIso fuel
            ⟨chunkEndFor chunkSize currentBlock s.cursor + 1, s.chunksProcessed + 1, hits,
              s.newTransfers,
              s.fetchCalls ++ [(s.cursor, chunkEndFor chunkSize currentBlock s.cursor)]⟩
      ∧ chunkEndFor chunkSize currentBlock s.cursor + 1
          ≤ (chunkLoopAux chunkSize chunksPerCall fetch currentBlock nowIso (fuel + 1) s).cursor)
  ∧ (3 ≤ hits →
      chunkLoopAux chunkSize chunksPerCall fetch currentBlock nowIso (fuel + 1) s
        = { s with
              rateLimitHits := hits,
              fetchCalls := s.fetchCalls
                ++ [(s.cursor, chunkEndFor chunkSize currentBlock s.cursor)] }) := by
  constructor
  · intro hlt
    have heq := chunkLoop_step_fail_skip chunkSize chunksPerCall fetch currentBlock nowIso fuel
      hguard hfail hlt
    refine ⟨heq, ?_⟩
    rw [heq]
    exact chunkLoopAux_cursor_mono chunkSize chunksPerCall fetch currentBlock nowIso fuel
      ⟨chunkEndFor chunkSize currentBlock s.cursor + 1, s.chunksProcessed + 1, hits,
        s.newTransfers, s.fetchCalls ++ [(s.cursor, chunkEndFor chunkSize currentBlock s.cursor)]⟩
  · intro hge
    exact chunkLoop_step_fail_stop chunkSize chunksPerCall fetch currentBlock nowIso fuel
      hguard hfail hge

/-- Witness for the amended C3 at a concrete failing chunk. -/
theorem C3_transient_error_fail_skip_witness :
    chunkLoopAux 2000 100 (fun _ _ _ => FetchResult.otherError) 41614002 "" (99 + 1)
        ⟨41610001, 0, 0, [], []⟩
      = chunkLoopAux 2000 100 (fun _ _ _ => FetchResult.otherError) 41614002 "" 99
          ⟨41612002, 1, 0, [], [(41610001, 41612001)]⟩
  ∧ 41612002 ≤ (chunkLoopAux 2000 100 (fun _ _ _ => FetchResult.otherError) 41614002 ""
      (99 + 1) ⟨41610001, 0, 0, [], []⟩).cursor := by
  have h := (C3_transient_error_fail_skip 2000 100 99 (fun _ _ _ => FetchResult.otherError)
    41614002 "" ⟨41610001, 0, 0, [], []⟩ 0 (by decide) (by decide)).1 (by decide)
  exact ⟨h.1, h.2⟩

theorem getLast_eq_of_checkpoint {d : Db} {b : ℕ} (h : d.checkpoint = some b) :
    getLastProcessedBlock d = b := by
  unfold getLastProcessedBlock
  rw [h]

/-- C6: rate-limit exhaustion — when every attempt for the current chunk
is rate-limited, the loop stops without advancing the cursor or recording
the chunk (it is never marked processed); a run whose first chunk is
rate-limited on every attempt still returns the success summary with
partial progress (savedBlock = resume point - 1, no new transfers,
caughtUp = false) and saves that checkpoint; and a concrete run whose
third chunk is all-rate-limited ends with the checkpoint at the end of
the last chunk that succeeded. -/
theorem C6_rate_limit_exhaustion (chunkSize chunksPerCall fuel : ℕ)
    (fetch : ℕ → ℕ → ℕ → FetchResult) (currentBlock : ℕ) (nowIso : String) (s : LoopState)
    (inp : SyncInputs) (db : Db) :
    ((s.cursor ≤ currentBlock ∧ s.chunksProcessed < chunksPerCall) →
      (∀ a, fetch s.cursor (chunkEndFor chunkSize currentBlock s.cursor) a
          = FetchResult.rateLimited) →
      chunkLoopAux chunkSize chunksPerCall fetch currentBlock nowIso (fuel + 1) s
        = { s with
              rateLimitHits := s.rateLimitHits + 3,
              fetchCalls := s.fetchCalls
                ++ [(s.cursor, chunkEndFor chunkSize currentBlock s.cursor)] })
  ∧ (inp.secretOk = true → inp.reset = none → 0 < chunksPerCall →
      resumeCursor (getLastProcessedBlock db) ≤ inp.currentBlock →
      (∀ e a, inp.fetch (resumeCursor (getLastProcessedBlock db)) e a
          = FetchResult.rateLimited) →
      inp.saveOk = true →
      ∃ summary : Summary, (syncRun chunkSize chunksPerCall inp db).1 = .ok summary
        ∧ summary.savedBlock = resumeCursor (getLastProcessedBlock db) - 1
        ∧ summary.newTransfers = 0 ∧ summary.blocksScanned = 0 ∧ summary.caughtUp = false
        ∧ getLastProcessedBlock (syncRun chunkSize chunksPerCall inp db).2
            = resumeCursor (getLastProcessedBlock db) - 1)
  ∧ getLastProcessedBlock (syncRun 2000 100
      ⟨true, none, 41620000,
        fun f _ _ => if f = 41614003 then FetchResult.rateLimited else FetchResult.success [],
        "", fun _ => none, fun _ => "", none, true⟩
      ⟨some 41610000, [], none, none⟩).2 = 41614002 := by
  refine ⟨?_, ?_, by decide⟩
  · intro hguard hrl
    exact chunkLoop_step_fail_stop chunkSize chunksPerCall fetch currentBlock nowIso fuel
      hguard (attemptLoop_all_rl hrl s.rateLimitHits) (by omega)
  · intro hsec hres hcpc hrange hrl hsave
    have hfin := runLoop_first_chunk_all_rl chunkSize chunksPerCall inp
      (resumeCursor (getLastProcessedBlock db)) hcpc hrange hrl
    have hb : ¬ 0 < (runLoop chunkSize chunksPerCall inp
        (resumeCursor (getLastProcessedBlock db))).newTransfers.length := by
      rw [hfin]
      simp
    have m1 : syncMain chunkSize chunksPerCall inp db (getLastProcessedBlock db)
        = finishRun chunkSize chunksPerCall inp db (getLastProcessedBlock db)
            (runLoop chunkSize chunksPerCall inp (resumeCursor (getLastProcessedBlock db)))
            db.ledger := by
      simp only [syncMain]
      rw [if_neg hb]
    rw [syncRun_eq_main chunkSize chunksPerCall db hsec hres hrange, m1]
    have h1 := resumeCursor_pos (getLastProcessedBlock db)
    refine ⟨_, rfl, ?_, ?_, ?_, ?_, ?_⟩
    · rw [hfin]
      rfl
    · rw [hfin]
      rfl
    · rw [hfin]
      simp [mkSummary]
    · rw [hfin]
      simp only [mkSummary]
      exact decide_eq_false (by omega)
    · rw [getLast_eq_of_checkpoint
        (finishRun_checkpoint_of_save_ok chunkSize chunksPerCall db _ _ _ hsave), hfin]

/-- Witness for C6: all-rate-limited oracle at a concrete loop state and a
concrete run. -/
theorem C6_rate_limit_exhaustion_witness :
    chunkLoopAux 2000 100 (fun _ _ _ => FetchResult.rateLimited) 41620000 "" (99 + 1)
        ⟨41610001, 2, 0, [], []⟩
      = ⟨41610001, 2, 3, [], [(41610001, 41612001)]⟩
  ∧ ∃ summary : Summary,
      (syncRun 2000 100
          ⟨true, none, 41620000, fun _ _ _ => FetchResult.rateLimited, "", fun _ => none,
            fun _ => "", none, true⟩ ⟨some 41610000, [], none, none⟩).1 = .ok summary
        ∧ summary.savedBlock = 41610000
        ∧ summary.newTransfers = 0 ∧ summary.blocksScanned = 0 ∧ summary.caughtUp = false
        ∧ getLastProcessedBlock (syncRun 2000 100
            ⟨true, none, 41620000, fun _ _ _ => FetchResult.rateLimited, "", fun _ => none,
              fun _ => "", none, true⟩ ⟨some 41610000, [], none, none⟩).2 = 41610000 := by
  have h := C6_rate_limit_exhaustion 2000 100 99 (fun _ _ _ => FetchResult.rateLimited)
    41620000 "" ⟨41610001, 2, 0, [], []⟩
    ⟨true, none, 41620000, fun _ _ _ => FetchResult.rateLimited, "", fun _ => none,
      fun _ => "", none, true⟩ ⟨some 41610000, [], none, none⟩
  exact ⟨h.1 (by decide) (fun a => rfl),
    h.2.1 rfl rfl (by decide) (by decide) (fun e a => rfl) rfl⟩

/-- C9 counterexample: the "never synced" state is not an explicit marker
distinct from block number 0 — a stored checkpoint row holding block 0 and
an absent checkpoint row read back as the same value 0, and both are
mapped to the genesis resume point, so a checkpoint legitimately at block
0 is not distinguished from the never-synced state when choosing the
resume point. -/
theorem C9_counterexample :
    getLastProcessedBlock ⟨some 0, [], none, none⟩
      = getLastProcessedBlock ⟨none, [], none, none⟩
  ∧ resumeCursor (getLastProcessedBlock ⟨some 0, [], none, none⟩) = GENESIS_BLOCK
  ∧ resumeCursor (getLastProcessedBlock ⟨none, [], none, none⟩) = GENESIS_BLOCK := by
  refine ⟨rfl, by decide, by decide⟩

/-- C9 (amended): the "no progress yet" state is represented by the
sentinel value 0, not by a marker distinct from block 0 — an absent
checkpoint row reads back as 0, the resume logic maps 0 to the genesis
block, any nonzero stored checkpoint b resumes at b + 1, and a stored
checkpoint of exactly block 0 is treated as never-synced (genesis
resume). -/
theorem C9_zero_sentinel (db : Db) :
    (db.checkpoint = none → getLastProcessedBlock db = 0)
  ∧ resumeCursor 0 = GENESIS_BLOCK
  ∧ (∀ b : ℕ, b ≠ 0 → db.checkpoint = some b
      → resumeCursor (getLastProcessedBlock db) = b + 1)
  ∧ (db.checkpoint = some 0 → resumeCursor (getLastProcessedBlock db) = GENESIS_BLOCK) := by
  refine ⟨?_, rfl, ?_, ?_⟩
  · intro h
    unfold getLastProcessedBlock
    rw [h]
  · intro b hb h
    have h1 : getLastProcessedBlock db = b := by
      unfold getLastProcessedBlock
      rw [h]
    rw [h1]
    unfold resumeCursor
    exact if_neg hb
  · intro h
    have h1 : getLastProcessedBlock db = 0 := by
      unfold getLastProcessedBlock
      rw [h]
    rw [h1]
    rfl

/-- Witness for the amended C9 at concrete stores. -/
theorem C9_zero_sentinel_witness :
    getLastProcessedBlock ⟨none, [], none, none⟩ = 0
  ∧ resumeCursor (getLastProcessedBlock ⟨some 5, [], none, none⟩) = 6
  ∧ resumeCursor (getLastProcessedBlock ⟨some 0, [], none, none⟩) = GENESIS_BLOCK :=
  ⟨(C9_zero_sentinel ⟨none, [], none, none⟩).1 rfl,
   (C9_zero_sentinel ⟨some 5, [], none, none⟩).2.2.1 5 (by decide) rfl,
   (C9_zero_sentinel ⟨some 0, [], none, none⟩).2.2.2 rfl⟩

/-- C8 counterexample: in Scenario A (checkpoint unset, chain head
genesis + 50, chunk size 20) the three chunks do not cover 20, 20 and 10
blocks — the getLogs ranges are inclusive of both endpoints, so they cover
21, 21 and 9 blocks. -/
theorem C8_counterexample :
    ((runLoop 20 100
        ⟨true, none, 41610050, fun _ _ _ => FetchResult.success [], "", fun _ => none,
          fun _ => "", none, true⟩ 41610000).fetchCalls.map fun p => p.2 - p.1 + 1)
      ≠ [20, 20, 10] := by
  decide

/-- C8 (amended): Scenario A — checkpoint unset, chain head genesis + 50,
chunk size 20 — fetches exactly three chunks with inclusive block ranges
(genesis, genesis+20), (genesis+21, genesis+41), (genesis+42, genesis+50),
covering 21, 21 and 9 blocks; the saved checkpoint ends at genesis + 50
and the returned summary reports caughtUp = true. -/
theorem C8_scenario_a :
    (runLoop 20 100
        ⟨true, none, 41610050, fun _ _ _ => FetchResult.success [], "", fun _ => none,
          fun _ => "", none, true⟩ 41610000).fetchCalls
      = [(41610000, 41610020), (41610021, 41610041), (41610042, 41610050)]
  ∧ (runLoop 20 100
        ⟨true, none, 41610050, fun _ _ _ => FetchResult.success [], "", fun _ => none,
          fun _ => "", none, true⟩ 41610000).chunksProcessed = 3
  ∧ ((runLoop 20 100
        ⟨true, none, 41610050, fun _ _ _ => FetchResult.success [], "", fun _ => none,
          fun _ => "", none, true⟩ 41610000).fetchCalls.map fun p => p.2 - p.1 + 1)
      = [21, 21, 9]
  ∧ (syncRun 20 100
        ⟨true, none, 41610050, fun _ _ _ => FetchResult.success [], "", fun _ => none,
          fun _ => "", none, true⟩ ⟨none, [], none, none⟩).1
      = .ok ⟨60, 41610000, 41610050, 0, 0, 41610050, true, 41610050, 0, 0⟩
  ∧ (syncRun 20 100
        ⟨true, none, 41610050, fun _ _ _ => FetchResult.success [], "", fun _ => none,
          fun _ => "", none, true⟩ ⟨none, [], none, none⟩).2.checkpoint = some 41610050 := by
  refine ⟨by decide, by decide, by decide, by decide, by decide⟩

/-- C10: a failed end-of-run checkpoint write is swallowed — the response
equals the response of the same run with a successful checkpoint write
(the caller cannot distinguish the two), the stored checkpoint is
unchanged, and the summary still reports savedBlock as the final
attempted block. -/
theorem C10_checkpoint_save_failure_swallowed (chunkSize chunksPerCall : ℕ)
    (inp : SyncInputs) (db : Db)
    (hsec : inp.secretOk = true) (hres : inp.reset = none)
    (hrange : resumeCursor (getLastProcessedBlock db) ≤ inp.currentBlock)
    (hins : inp.insertErr = none) (hsave : inp.saveOk = false) :
    (syncRun chunkSize chunksPerCall inp db).1
      = (syncRun chunkSize chunksPerCall { inp with saveOk := true } db).1
  ∧ (syncRun chunkSize chunksPerCall inp db).2.checkpoint = db.checkpoint
  ∧ ∃ summary : Summary, (syncRun chunkSize chunksPerCall inp db).1 = .ok summary
      ∧ summary.savedBlock
          = (runLoop chunkSize chunksPerCall inp
              (resumeCursor (getLastProcessedBlock db))).cursor - 1 := by
  have hsec' : ({ inp with saveOk := true } : SyncInputs).secretOk = true := hsec
  have hres' : ({ inp with saveOk := true } : SyncInputs).reset = none := hres
  have hins' : ({ inp with saveOk := true } : SyncInputs).insertErr = none := hins
  have hloop : runLoop chunkSize chunksPerCall ({ inp with saveOk := true } : SyncInputs)
      (resumeCursor (getLastProcessedBlock db))
      = runLoop chunkSize chunksPerCall inp (resumeCursor (getLastProcessedBlock db)) := rfl
  have e1 := @syncRun_eq_main chunkSize chunksPerCall inp db hsec hres hrange
  have e2 := @syncRun_eq_main chunkSize chunksPerCall { inp with saveOk := true } db
    hsec' hres' hrange
  by_cases hb : 0 < (runLoop chunkSize chunksPerCall inp
      (resumeCursor (getLastProcessedBlock db))).newTransfers.length
  · have m1 : syncMain chunkSize chunksPerCall inp db (getLastProcessedBlock db)
        = finishRun chunkSize chunksPerCall inp db (getLastProcessedBlock db)
            (runLoop chunkSize chunksPerCall inp (resumeCursor (getLastProcessedBlock db)))
            (upsertLedger db.ledger
              ((runLoop chunkSize chunksPerCall inp
                (resumeCursor (getLastProcessedBlock db))).newTransfers.map
                (stampTransfer inp))) := by
      simp only [syncMain]
      rw [if_pos hb, hins]
    have m2 : syncMain chunkSize chunksPerCall ({ inp with saveOk := true } : SyncInputs) db
          (getLastProcessedBlock db)
        = finishRun chunkSize chunksPerCall ({ inp with saveOk := true } : SyncInputs) db
            (getLastProcessedBlock db)
            (runLoop chunkSize chunksPerCall inp (resumeCursor (getLastProcessedBlock db)))
            (upsertLedger db.ledger
              ((runLoop chunkSize chunksPerCall inp
                (resumeCursor (getLastProcessedBlock db))).newTransfers.map
                (stampTransfer inp))) := by
      simp only [syncMain]
      rw [hloop, if_pos hb, hins']
      rfl
    rw [e1, e2, m1, m2]
    exact ⟨rfl,
      finishRun_checkpoint_of_save_fail chunkSize chunksPerCall db _ _ _ hsave,
      ⟨_, rfl, rfl⟩⟩
  · have m1 : syncMain chunkSize chunksPerCall inp db (getLastProcessedBlock db)
        = finishRun chunkSize chunksPerCall inp db (getLastProcessedBlock db)
            (runLoop chunkSize chunksPerCall inp (resumeCursor (getLastProcessedBlock db)))
            db.ledger := by
      simp only [syncMain]
      rw [if_neg hb]
    have m2 : syncMain chunkSize chunksPerCall ({ inp with saveOk := true } : SyncInputs) db
          (getLastProcessedBlock db)
        = finishRun chunkSize chunksPerCall ({ inp with saveOk := true } : SyncInputs) db
            (getLastProcessedBlock db)
            (runLoop chunkSize chunksPerCall inp (resumeCursor (getLastProcessedBlock db)))
            db.ledger := by
      simp only [syncMain]
      rw [hloop, if_neg hb]
    rw [e1, e2, m1, m2]
    exact ⟨rfl,
      finishRun_checkpoint_of_save_fail chunkSize chunksPerCall db _ _ _ hsave,
      ⟨_, rfl, rfl⟩⟩

/-- Witness for C10: a caught-up one-chunk run whose checkpoint write
fails. -/
theorem C10_checkpoint_save_failure_swallowed_witness :
    (syncRun 2000 100
        ⟨true, none, 41610001, fun _ _ _ => FetchResult.success [], "", fun _ => none,
          fun _ => "", none, false⟩ ⟨some 41610000, [], none, none⟩).1
      = (syncRun 2000 100
          ⟨true, none, 41610001, fun _ _ _ => FetchResult.success [], "", fun _ => none,
            fun _ => "", none, true⟩ ⟨some 41610000, [], none, none⟩).1
  ∧ (syncRun 2000 100
        ⟨true, none, 41610001, fun _ _ _ => FetchResult.success [], "", fun _ => none,
          fun _ => "", none, false⟩ ⟨some 41610000, [], none, none⟩).2.checkpoint
      = some 41610000
  ∧ ∃ summary : Summary,
      (syncRun 2000 100
          ⟨true, none, 41610001, fun _ _ _ => FetchResult.success [], "", fun _ => none,
            fun _ => "", none, false⟩ ⟨some 41610000, [], none, none⟩).1 = .ok summary
      ∧ summary.savedBlock
          = (runLoop 2000 100
              ⟨true, none, 41610001, fun _ _ _ => FetchResult.success [], "", fun _ => none,
                fun _ => "", none, false⟩
              (resumeCursor (getLastProcessedBlock
                (⟨some 41610000, [], none, none⟩ : Db)))).cursor - 1 :=
  C10_checkpoint_save_failure_swallowed 2000 100
    ⟨true, none, 41610001, fun _ _ _ => FetchResult.success [], "", fun _ => none,
      fun _ => "", none, false⟩
    ⟨some 41610000, [], none, none⟩ rfl rfl (by decide) rfl rfl
